import Mathlib

/-!
Verification of the `meta::corpus::document` data model (src/include/corpus/document.h).

The repository ships only the class declaration; the member-function bodies live
in a translation unit that is not part of the sources.  Operations are therefore
modelled from the specification, while the declared field types of the header
remain authoritative: `_length` is a `size_t` (an unsigned 64-bit machine
integer, modelled as `Nat` kept below `2 ^ 64`), term weights and increment
amounts are `double` (modelled exactly as `ℚ`), and similarity results are
`double` (modelled as `ℚ` for Jaccard and `ℝ` for cosine, which needs square
roots).  `term_id`, `class_label` and `doc_id` are opaque identifiers coming
from `meta.h`; terms and labels are modelled as strings, document ids as
naturals.
-/

namespace MetaCorpus

/-- Opaque vocabulary-term identifier (typedef in `meta.h`), modelled as a
string so that the slda serialization can be stated literally. -/
abbrev term_id := String

/-- Opaque classification label (typedef in `meta.h`). -/
abbrev class_label := String

/-- Opaque document identifier (typedef in `meta.h`). -/
abbrev doc_id := Nat

/-- One more than the largest value a `size_t` field can hold. -/
def sizeTMod : Nat := 2 ^ 64

/-- Truncation of a rational toward zero, the rounding C++ applies when
converting a floating-point value to an integer type. -/
def ratTrunc (q : ℚ) : Int := if 0 ≤ q then ⌊q⌋ else -⌊-q⌋

/-- Modelled from the spec: conversion of a real (`double`) quantity into the
unsigned `size_t` field `_length` declared in the header — truncate toward
zero, then reduce modulo `2 ^ 64`. -/
def ratToSizeT (q : ℚ) : Nat := (ratTrunc q % (sizeTMod : Int)).toNat

/-- The document record: the private fields declared in
`src/include/corpus/document.h` lines 160-186. -/
structure document where
  _path : String
  _d_id : doc_id
  _label : class_label
  _name : String
  _length : Nat
  _frequencies : List (term_id × ℚ)
  _content : String
  _contains_content : Bool
deriving DecidableEq, Repr

/-- Final component of a path, used for the document's short name. -/
def lastPathComponent (path : String) : String :=
  (path.splitOn "/").getLastD ""

/-- Modelled from the spec: the constructor `document(path, d_id, label)` —
stores identity fields, derives `_name` from the path, starts with an empty
frequency mapping, zero length and no content. -/
def document.mkDoc (path : String) (d_id : doc_id) (label : class_label) : document :=
  { _path := path
    _d_id := d_id
    _label := label
    _name := lastPathComponent path
    _length := 0
    _frequencies := []
    _content := ""
    _contains_content := false }

/-- Association-list lookup on string keys (the model of
`std::unordered_map::find`). -/
def alistLookup {β : Type} (ps : List (String × β)) (k : String) : Option β :=
  match ps with
  | [] => none
  | (u, w) :: rest => if u = k then some w else alistLookup rest k

/-- Modelled from the spec: the mapping update performed by `increment` — add
`a` to the entry for `t`, creating the entry at `a` if absent. -/
def updateFreqs (fs : List (term_id × ℚ)) (t : term_id) (a : ℚ) :
    List (term_id × ℚ) :=
  match fs with
  | [] => [(t, a)]
  | (u, w) :: rest =>
      if u = t then (u, w + a) :: rest else (u, w) :: updateFreqs rest t a

/-- Modelled from the spec: `document::increment(termID, amount)` — adds
`amount` to the stored weight for `termID` and adds `amount` to the `size_t`
field `_length`. -/
def document.increment (d : document) (termID : term_id) (amount : ℚ) : document :=
  { d with
      _frequencies := updateFreqs d._frequencies termID amount
      _length := ratToSizeT ((d._length : ℚ) + amount) }

/-- Accessor `document::path`. -/
def document.path (d : document) : String := d._path

/-- Accessor `document::label`. -/
def document.label (d : document) : class_label := d._label

/-- Accessor `document::name`. -/
def document.name (d : document) : String := d._name

/-- Accessor `document::length` (returns the `size_t` field). -/
def document.length (d : document) : Nat := d._length

/-- Modelled from the spec: `document::frequency(termID)` — the stored weight,
or 0 if the term has no entry. -/
def document.frequency (d : document) (termID : term_id) : ℚ :=
  (alistLookup d._frequencies termID).getD 0

/-- Accessor `document::frequencies`. -/
def document.frequencies (d : document) : List (term_id × ℚ) := d._frequencies

/-- Accessor `document::id`. -/
def document.id (d : document) : doc_id := d._d_id

/-- Modelled from the spec: `document::set_content` — stores the payload and
raises the `_contains_content` flag. -/
def document.set_content (d : document) (content : String) : document :=
  { d with _content := content, _contains_content := true }

/-- Accessor `document::content`. -/
def document.content (d : document) : String := d._content

/-- Accessor `document::contains_content`. -/
def document.contains_content (d : document) : Bool := d._contains_content

/-- Modelled from the spec: `document::set_label`. -/
def document.set_label (d : document) (label : class_label) : document :=
  { d with _label := label }

/-- The set of term keys present in a document's mapping. -/
def keySet (d : document) : Finset term_id :=
  (d._frequencies.map Prod.fst).toFinset

/-- Modelled from the spec: `document::jaccard_similarity(a, b)` — size of the
intersection of the two key sets over the size of their union, 0 when the
union is empty. -/
def document.jaccard_similarity (a b : document) : ℚ :=
  if (keySet a ∪ keySet b).card = 0 then 0
  else ((keySet a ∩ keySet b).card : ℚ) / ((keySet a ∪ keySet b).card : ℚ)

/-- Dot product of the two weight vectors over the union of the key sets,
a missing key counting as weight 0. -/
def document.dotProduct (a b : document) : ℚ :=
  ∑ t ∈ keySet a ∪ keySet b, a.frequency t * b.frequency t

/-- Squared Euclidean norm of a document's weight vector. -/
def document.normSq (d : document) : ℚ :=
  ∑ t ∈ keySet d, d.frequency t ^ 2

/-- Modelled from the spec: `document::cosine_similarity(a, b)` — dot product
over the product of the Euclidean norms, 0 when either norm is zero. -/
noncomputable def document.cosine_similarity (a b : document) : ℝ :=
  if Real.sqrt (a.normSq : ℝ) * Real.sqrt (b.normSq : ℝ) = 0 then 0
  else (a.dotProduct b : ℝ) / (Real.sqrt (a.normSq : ℝ) * Real.sqrt (b.normSq : ℝ))

/-- Whether a term occurs as a key of the features allowlist. -/
def memKeys (features : List (term_id × ℚ)) (t : term_id) : Bool :=
  features.any (fun p => p.1 == t)

/-- Modelled from the spec: the single-document
`document::filter_features(doc, features)` — keep only the entries whose term
appears in `features` (weights in `features` ignored), recompute the `size_t`
length as the sum of the retained weights, keep every other field. -/
def document.filter_features (doc : document) (features : List (term_id × ℚ)) :
    document :=
  let kept := doc._frequencies.filter (fun p => memKeys features p.1)
  { doc with
      _frequencies := kept
      _length := ratToSizeT ((kept.map Prod.snd).sum) }

/-- Modelled from the spec: the batch
`document::filter_features(docs, features)` — a loop that pushes the filtered
version of each input document onto the output vector in order. -/
def document.filter_features_batch (docs : List document)
    (features : List (term_id × ℚ)) : List document :=
  List.foldl (fun acc d => acc ++ [document.filter_features d features]) [] docs

/-- Rendering of one mapping entry as the slda `term:weight` token, with its
leading separator. -/
def freqToken (p : term_id × ℚ) : String :=
  " " ++ p.1 ++ ":" ++ toString p.2

/-- Number of distinct terms with nonzero stored weight. -/
def nonzeroTermCount (d : document) : Nat :=
  (d._frequencies.filter (fun p => p.2 != 0)).length

/-- Modelled from the spec: `document::get_slda_term_data()` — a leading count
of the distinct terms with nonzero weight followed by one `term:weight` token
per mapping entry, accumulated in iteration order. -/
def document.get_slda_term_data (d : document) : String :=
  d._frequencies.foldl (fun acc p => acc ++ freqToken p)
    (toString (nonzeroTermCount d))

/-- Modelled from the spec: the bidirectional label/integer collaborator
`util::invertible_map<class_label, int>` (its header is not among the
sources), kept as the list of associations in insertion order. -/
structure invertible_map where
  pairs : List (class_label × Int)
deriving DecidableEq, Repr

/-- The integers already assigned by the collaborator. -/
def usedInts (m : invertible_map) : List Int :=
  m.pairs.map Prod.snd

/-- Modelled from the spec: the next unused integer the collaborator assigns
to a fresh label — strictly larger than every integer assigned so far. -/
def nextUnused (m : invertible_map) : Int :=
  (usedInts m).foldr max (-1) + 1

/-- Modelled from the spec: get-or-assign on the collaborator — reuse the
stored integer for a seen label, otherwise record and return the next unused
integer. -/
def getOrAssign (m : invertible_map) (l : class_label) : Int × invertible_map :=
  match alistLookup m.pairs l with
  | some i => (i, m)
  | none => (nextUnused m, ⟨m.pairs ++ [(l, nextUnused m)]⟩)

/-- Modelled from the spec: `document::get_slda_label_data(mapping)` —
resolves the document's label through the shared collaborator (returned
alongside the result, since the C++ call mutates it) and formats the integer
as a string. -/
def document.get_slda_label_data (d : document) (mapping : invertible_map) :
    String × invertible_map :=
  ((toString (getOrAssign mapping d._label).1), (getOrAssign mapping d._label).2)

/-- A sequence of `get_slda_label_data` calls against one shared collaborator:
each document's call sees the mapping as mutated by all earlier calls; the
returned strings are collected in call order. -/
def runSlda (m : invertible_map) (ds : List document) : List String :=
  match ds with
  | [] => []
  | d :: rest =>
      (d.get_slda_label_data m).1
        :: runSlda (d.get_slda_label_data m).2 rest

/-- The mutating operations available on a document after construction. -/
inductive DocOp where
  | incr : term_id → ℚ → DocOp
  | setContent : String → DocOp
  | setLabel : class_label → DocOp
deriving DecidableEq, Repr

/-- Apply one mutating operation. -/
def applyOp (d : document) (op : DocOp) : document :=
  match op with
  | .incr t a => d.increment t a
  | .setContent c => d.set_content c
  | .setLabel l => d.set_label l

/-- Apply a sequence of mutating operations in order. -/
def applyOps (d : document) (ops : List DocOp) : document :=
  ops.foldl applyOp d

/-- Apply a sequence of `increment` calls, given as (term, amount) pairs. -/
def increments (d : document) (ps : List (term_id × ℚ)) : document :=
  ps.foldl (fun acc p => acc.increment p.1 p.2) d

/-- Sum of all amounts of an increment sequence. -/
def sumAmounts (ps : List (term_id × ℚ)) : ℚ :=
  (ps.map Prod.snd).sum

/-- Sum of the amounts an increment sequence applies to the term `t`. -/
def sumAmountsFor (t : term_id) (ps : List (term_id × ℚ)) : ℚ :=
  ((ps.filter (fun p => p.1 == t)).map Prod.snd).sum

/-- View of a natural-number increment amount as the `double` argument. -/
def natAmount (p : term_id × Nat) : term_id × ℚ :=
  (p.1, (p.2 : ℚ))

/-- Concatenation of a list of strings. -/
def strConcat (l : List String) : String :=
  l.foldr (fun a b => a ++ b) ""

/-- The set of term keys appearing in a features allowlist. -/
def featKeySet (F : List (term_id × ℚ)) : Finset term_id :=
  (F.map Prod.fst).toFinset

/-- The example document A = \x7bterm1:2, term2:1\x7d of the specification,
built through the public interface. -/
def docA : document :=
  increments (document.mkDoc "A" 0 "[NONE]") [("term1", 2), ("term2", 1)]

/-- The example document B = \x7bterm2:3, term3:1\x7d of the specification. -/
def docB : document :=
  increments (document.mkDoc "B" 1 "[NONE]") [("term2", 3), ("term3", 1)]

/-- A one-term document used as a cosine-similarity witness. -/
def docC : document :=
  increments (document.mkDoc "C" 2 "[NONE]") [("term1", 2)]

/-- A document holding a fractional weight, as produced by real-valued
(e.g. tf-idf style) increment amounts. -/
def docHalf : document :=
  (document.mkDoc "H" 3 "[NONE]").increment "t" (1 / 2)

/-- The allowlist [term1, term3] of the specification's filtering example. -/
def featsA : List (term_id × ℚ) :=
  [("term1", 0), ("term3", 0)]

/-- Three documents whose labels interleave (spam, ham, spam), used to witness
label-integer stability across intervening calls with other labels. -/
def docsW : List document :=
  [document.mkDoc "a" 0 "spam", document.mkDoc "b" 1 "ham",
   document.mkDoc "c" 2 "spam"]

/-- Whether an operation is a `set_content` call. -/
def isSetContent (op : DocOp) : Bool :=
  match op with
  | .setContent _ => true
  | _ => false

lemma lookup_updateFreqs (fs : List (term_id × ℚ)) (t u : term_id) (a : ℚ) :
    (alistLookup (updateFreqs fs u a) t).getD 0
      = (alistLookup fs t).getD 0 + if u = t then a else 0 := by
  induction fs with
  | nil =>
      by_cases h : u = t <;> simp [updateFreqs, alistLookup, h]
  | cons p rest ih =>
      obtain ⟨v, w⟩ := p
      by_cases hvu : v = u
      · subst hvu
        by_cases hvt : v = t
        · subst hvt
          simp [updateFreqs, alistLookup]
        · simp [updateFreqs, alistLookup, hvt]
      · by_cases hvt : v = t
        · have hut : ¬ u = t := fun h => hvu (hvt.trans h.symm)
          have htu : ¬ t = u := fun h => hvu (hvt.trans h)
          simp [updateFreqs, alistLookup, hvu, hvt, hut, htu]
        · simp [updateFreqs, alistLookup, hvu, hvt, ih]

lemma frequency_increment (d : document) (t u : term_id) (a : ℚ) :
    (d.increment u a).frequency t = d.frequency t + if u = t then a else 0 := by
  simp only [document.increment, document.frequency]
  exact lookup_updateFreqs d._frequencies t u a

lemma sumAmountsFor_cons (t : term_id) (p : term_id × ℚ) (ps : List (term_id × ℚ)) :
    sumAmountsFor t (p :: ps)
      = (if p.1 = t then p.2 else 0) + sumAmountsFor t ps := by
  by_cases h : p.1 = t <;> simp [sumAmountsFor, h]

lemma frequency_increments (ps : List (term_id × ℚ)) (d : document) (t : term_id) :
    (increments d ps).frequency t = d.frequency t + sumAmountsFor t ps := by
  induction ps generalizing d with
  | nil => simp [increments, sumAmountsFor]
  | cons p ps ih =>
      have hstep : increments d (p :: ps) = increments (d.increment p.1 p.2) ps := rfl
      rw [hstep, ih, frequency_increment, sumAmountsFor_cons]
      ring

lemma ratToSizeT_natCast (n : Nat) (h : n < sizeTMod) :
    ratToSizeT (n : ℚ) = n := by
  have h0 : ratTrunc (n : ℚ) = (n : Int) := by
    simp [ratTrunc, Int.floor_natCast]
  have h1 : ((n : Int) % (sizeTMod : Int)) = (n : Int) :=
    Int.emod_eq_of_lt (Int.natCast_nonneg n) (by exact_mod_cast h)
  simp [ratToSizeT, h0, h1]

lemma length_increment_nat (d : document) (t : term_id) (n : Nat)
    (h : d._length + n < sizeTMod) :
    (d.increment t (n : ℚ))._length = d._length + n := by
  have hc : ((d._length : ℚ) + (n : ℚ)) = ((d._length + n : Nat) : ℚ) := by
    push_cast
    ring
  simp only [document.increment, hc]
  exact ratToSizeT_natCast _ h

lemma length_increments_nat (ps : List (term_id × Nat)) (d : document)
    (h : d._length + (ps.map Prod.snd).sum < sizeTMod) :
    (increments d (ps.map natAmount))._length
      = d._length + (ps.map Prod.snd).sum := by
  induction ps generalizing d with
  | nil => simp [increments]
  | cons p ps ih =>
      have hstep :
          increments d ((p :: ps).map natAmount)
            = increments (d.increment p.1 (p.2 : ℚ)) (ps.map natAmount) := rfl
      have hsum : ((p :: ps).map Prod.snd).sum = p.2 + (ps.map Prod.snd).sum := by
        simp
      rw [hsum] at h
      have h1 : d._length + p.2 < sizeTMod := by omega
      have h2 : (d.increment p.1 (p.2 : ℚ))._length = d._length + p.2 :=
        length_increment_nat d p.1 p.2 h1
      rw [hstep, ih]
      · rw [h2]
        omega
      · rw [h2]
        omega

lemma ratToSizeT_lt (q : ℚ) : ratToSizeT q < sizeTMod := by
  have hpos : (0 : Int) < (sizeTMod : Int) := by
    simp [sizeTMod]
  have h1 : ratTrunc q % (sizeTMod : Int) < (sizeTMod : Int) :=
    Int.emod_lt_of_pos _ hpos
  simp only [ratToSizeT]
  omega

lemma length_increments_lt (ps : List (term_id × ℚ)) (d : document)
    (h : d._length < sizeTMod) :
    (increments d ps)._length < sizeTMod := by
  induction ps generalizing d with
  | nil => exact h
  | cons p ps ih =>
      have hstep : increments d (p :: ps) = increments (d.increment p.1 p.2) ps := rfl
      rw [hstep]
      exact ih _ (ratToSizeT_lt _)

lemma alistLookup_eq_none (fs : List (term_id × ℚ)) (t : term_id)
    (h : t ∉ fs.map Prod.fst) : alistLookup fs t = none := by
  induction fs with
  | nil => rfl
  | cons p rest ih =>
      have h1 : ¬ p.1 = t := by
        intro he
        exact h (by simp [he])
      have h2 : t ∉ rest.map Prod.fst := fun hm => h (by simp [hm])
      obtain ⟨u, w⟩ := p
      simpa [alistLookup, h1] using ih h2

lemma frequency_eq_zero_of_not_mem (d : document) (t : term_id)
    (h : t ∉ keySet d) : d.frequency t = 0 := by
  have h1 : t ∉ d._frequencies.map Prod.fst := by
    simpa [keySet] using h
  simp [document.frequency, alistLookup_eq_none _ _ h1]

lemma mem_keySet_of_frequency_ne_zero (d : document) (t : term_id)
    (h : d.frequency t ≠ 0) : t ∈ keySet d := by
  by_contra hc
  exact h (frequency_eq_zero_of_not_mem d t hc)

lemma normSq_nonneg (d : document) : 0 ≤ d.normSq :=
  Finset.sum_nonneg fun t _ => sq_nonneg (d.frequency t)

lemma dotProduct_self (d : document) : d.dotProduct d = d.normSq := by
  simp only [document.dotProduct, document.normSq, Finset.union_self]
  exact Finset.sum_congr rfl fun t _ => (sq (d.frequency t)).symm

lemma normSq_pos (d : document) (t : term_id) (h : d.frequency t ≠ 0) :
    0 < d.normSq := by
  refine Finset.sum_pos' (fun u _ => sq_nonneg (d.frequency u)) ?_
  refine ⟨t, mem_keySet_of_frequency_ne_zero d t h, ?_⟩
  exact lt_of_le_of_ne (sq_nonneg _) (Ne.symm (pow_ne_zero 2 h))

lemma dotProduct_comm (a b : document) : a.dotProduct b = b.dotProduct a := by
  simp only [document.dotProduct]
  rw [Finset.union_comm]
  exact Finset.sum_congr rfl fun t _ => mul_comm _ _

lemma sqrt_normSq_eq_zero_iff (d : document) :
    Real.sqrt (d.normSq : ℝ) = 0 ↔ d.normSq = 0 := by
  have h0 : (0 : ℝ) ≤ (d.normSq : ℝ) := by
    exact_mod_cast normSq_nonneg d
  constructor
  · intro h
    have := (Real.sqrt_eq_zero h0).mp h
    exact_mod_cast this
  · intro h
    rw [h]
    simp

lemma lookup_filter_memKeys (fs : List (term_id × ℚ))
    (F : List (term_id × ℚ)) (t : term_id) :
    alistLookup (fs.filter (fun p => memKeys F p.1)) t
      = if memKeys F t then alistLookup fs t else none := by
  induction fs with
  | nil => by_cases h : memKeys F t <;> simp [alistLookup, h]
  | cons p rest ih =>
      obtain ⟨u, w⟩ := p
      by_cases hut : u = t
      · subst hut
        by_cases hm : memKeys F u <;>
          simp [List.filter_cons, alistLookup, hm, ih]
      · by_cases hm : memKeys F u <;>
          simp [List.filter_cons, alistLookup, hm, hut, ih]

lemma memKeys_iff (F : List (term_id × ℚ)) (t : term_id) :
    memKeys F t = true ↔ t ∈ featKeySet F := by
  simp [memKeys, featKeySet, beq_iff_eq]

lemma keySet_filter_features (doc : document) (F : List (term_id × ℚ)) :
    keySet (doc.filter_features F) = keySet doc ∩ featKeySet F := by
  ext t
  simp only [keySet, document.filter_features, List.mem_toFinset, List.mem_map,
    List.mem_filter, Finset.mem_inter]
  constructor
  · rintro ⟨p, ⟨hp, hmem⟩, he⟩
    refine ⟨⟨p, hp, he⟩, ?_⟩
    rw [← he]
    exact (memKeys_iff F p.1).mp hmem
  · rintro ⟨⟨p, hp, he⟩, hf⟩
    refine ⟨p, ⟨hp, ?_⟩, he⟩
    rw [he]
    exact (memKeys_iff F t).mpr hf

lemma strConcat_cons (a : String) (l : List String) :
    strConcat (a :: l) = a ++ strConcat l := rfl

lemma foldl_append_strConcat (l : List String) (s : String) :
    List.foldl (fun acc a => acc ++ a) s l = s ++ strConcat l := by
  induction l generalizing s with
  | nil => simp [strConcat, String.append_empty]
  | cons a l ih =>
      simp only [List.foldl_cons, strConcat_cons]
      rw [ih, String.append_assoc]

lemma le_foldr_max (l : List Int) (x : Int) (h : x ∈ l) :
    x ≤ l.foldr max (-1) := by
  induction l with
  | nil => cases h
  | cons a l ih =>
      rcases List.mem_cons.mp h with he | hm
      · subst he
        exact le_max_left _ _
      · exact le_trans (ih hm) (le_max_right _ _)

lemma nextUnused_not_mem (m : invertible_map) : nextUnused m ∉ usedInts m := by
  intro h
  have := le_foldr_max (usedInts m) _ h
  simp only [nextUnused] at this
  omega

lemma alistLookup_append_of_none {β : Type} (ps : List (String × β))
    (l : String) (i : β) (h : alistLookup ps l = none) :
    alistLookup (ps ++ [(l, i)]) l = some i := by
  induction ps with
  | nil => simp [alistLookup]
  | cons p rest ih =>
      obtain ⟨u, w⟩ := p
      by_cases hul : u = l
      · simp [alistLookup, hul] at h
      · simp only [alistLookup, hul, if_false, List.cons_append] at h ⊢
        exact ih h

lemma contains_content_applyOps (ops : List DocOp) (d : document) :
    (applyOps d ops)._contains_content
      = (d._contains_content || ops.any isSetContent) := by
  induction ops generalizing d with
  | nil => simp [applyOps]
  | cons op ops ih =>
      have hstep : applyOps d (op :: ops) = applyOps (applyOp d op) ops := rfl
      rw [hstep, ih]
      cases op with
      | incr t a => simp [applyOp, document.increment, isSetContent]
      | setContent c => simp [applyOp, document.set_content, isSetContent]
      | setLabel l => simp [applyOp, document.set_label, isSetContent]

lemma ratToSizeT_half : ratToSizeT ((1 : ℚ) / 2) = 0 := by
  have hfl : (⌊(1 : ℚ) / 2⌋ : Int) = 0 := by
    rw [Int.floor_eq_zero_iff]
    constructor <;> norm_num
  have htr : ratTrunc ((1 : ℚ) / 2) = 0 := by
    rw [ratTrunc, if_pos (by norm_num : (0 : ℚ) ≤ 1 / 2), hfl]
  rw [ratToSizeT, htr]
  simp

lemma half_increment_length :
    (increments (document.mkDoc "H" 3 "[NONE]") [("t", (1 : ℚ) / 2)]).length = 0 := by
  show ratToSizeT ((((document.mkDoc "H" 3 "[NONE]")._length : Nat) : ℚ) + 1 / 2) = 0
  have h0 : (((document.mkDoc "H" 3 "[NONE]")._length : Nat) : ℚ) + 1 / 2 = 1 / 2 := by
    norm_num [document.mkDoc]
  rw [h0, ratToSizeT_half]

/-- Claim C1, counterexample: after the single call `increment("t", 1/2)` on a
fresh document, `length()` does not equal the sum `1/2` of the amounts — the
`size_t` field truncates the fractional value to 0. -/
theorem increment_fractional_length_cex :
    ¬ (((increments (document.mkDoc "H" 3 "[NONE]") [("t", (1 : ℚ) / 2)]).length : ℚ)
        = sumAmounts [("t", (1 : ℚ) / 2)]) := by
  have h2 : sumAmounts [("t", (1 : ℚ) / 2)] = 1 / 2 := by
    simp [sumAmounts]
  intro h
  rw [half_increment_length, h2] at h
  norm_num at h

/-- Claim C1 (amended): for every sequence of increments after construction,
`frequency(t)` equals the sum of the amounts applied to term `t` (0 for a term
never incremented), for arbitrary real amounts; and `length()` equals the sum
of all amounts whenever every amount is a natural number and the total stays
below `2 ^ 64` (the stored length is a `size_t`, so fractional or negative
sums are truncated instead). -/
theorem increment_history_correct (p : String) (i : doc_id) (l : class_label) :
    (∀ (ps : List (term_id × ℚ)) (t : term_id),
        (increments (document.mkDoc p i l) ps).frequency t = sumAmountsFor t ps) ∧
    (∀ ps : List (term_id × Nat), (ps.map Prod.snd).sum < sizeTMod →
        (increments (document.mkDoc p i l) (ps.map natAmount)).length
          = (ps.map Prod.snd).sum) := by
  constructor
  · intro ps t
    have h0 : (document.mkDoc p i l).frequency t = 0 := rfl
    rw [frequency_increments, h0, zero_add]
  · intro ps h
    have h0 : (document.mkDoc p i l)._length = 0 := rfl
    have := length_increments_nat ps (document.mkDoc p i l) (by rw [h0]; omega)
    rw [h0, Nat.zero_add] at this
    exact this

/-- Claim C1, witness: the increments term1 += 2, term2 += 1 on a fresh
document give length 3 and frequency(term1) = 2. -/
theorem increment_history_correct_witness :
    (([("term1", (2 : Nat)), ("term2", 1)].map Prod.snd).sum < sizeTMod) ∧
    (increments (document.mkDoc "doc" 0 "[NONE]")
        ([("term1", (2 : Nat)), ("term2", 1)].map natAmount)).length
      = ([("term1", (2 : Nat)), ("term2", 1)].map Prod.snd).sum ∧
    (increments (document.mkDoc "doc" 0 "[NONE]")
        [("term1", (2 : ℚ)), ("term2", 1)]).frequency "term1"
      = sumAmountsFor "term1" [("term1", (2 : ℚ)), ("term2", 1)] :=
  ⟨by decide,
   (increment_history_correct "doc" 0 "[NONE]").2
      [("term1", (2 : Nat)), ("term2", 1)] (by decide),
   (increment_history_correct "doc" 0 "[NONE]").1
      [("term1", (2 : ℚ)), ("term2", 1)] "term1"⟩

/-- Claim C10: after any increment history the stored length is an unsigned
machine integer below `2 ^ 64`; whenever the real-valued sum of the amounts is
negative or fractional (equivalently, not equal to any natural number),
`length()` cannot equal that sum; and each `increment` stores the truncated,
modulo-`2 ^ 64` value of `length + amount`. -/
theorem length_machine_integer (p : String) (i : doc_id) (l : class_label)
    (ps : List (term_id × ℚ)) :
    (increments (document.mkDoc p i l) ps).length < sizeTMod ∧
    ((∀ n : Nat, sumAmounts ps ≠ (n : ℚ)) →
      ((increments (document.mkDoc p i l) ps).length : ℚ) ≠ sumAmounts ps) ∧
    (∀ (d : document) (t : term_id) (a : ℚ),
      (d.increment t a).length = ratToSizeT ((d.length : ℚ) + a)) := by
  refine ⟨?_, ?_, fun d t a => rfl⟩
  · have h0 : (document.mkDoc p i l)._length = 0 := rfl
    refine length_increments_lt ps _ ?_
    rw [h0]
    simp [sizeTMod]
  · intro hq heq
    exact hq _ heq.symm

/-- Claim C10, witness: with the single increment amount 1/2 the sum is
fractional and length (= 0) differs from it. -/
theorem length_machine_integer_witness :
    (∀ n : Nat, sumAmounts [("t", (1 : ℚ) / 2)] ≠ (n : ℚ)) ∧
    ((increments (document.mkDoc "H" 3 "[NONE]") [("t", (1 : ℚ) / 2)]).length : ℚ)
      ≠ sumAmounts [("t", (1 : ℚ) / 2)] := by
  have hns : ∀ n : Nat, sumAmounts [("t", (1 : ℚ) / 2)] ≠ (n : ℚ) := by
    intro n h
    have hs : sumAmounts [("t", (1 : ℚ) / 2)] = 1 / 2 := by
      simp [sumAmounts]
    rw [hs] at h
    have h0 : (0 : ℚ) < (n : ℚ) := by
      rw [← h]
      norm_num
    have h1 : (n : ℚ) < 1 := by
      rw [← h]
      norm_num
    have hn0 : 0 < n := by exact_mod_cast h0
    have hn1 : n < 1 := by exact_mod_cast h1
    omega
  exact ⟨hns, (length_machine_integer "H" 3 "[NONE]" [("t", (1 : ℚ) / 2)]).2.1 hns⟩

/-- Claim C2, counterexample: filtering a document whose only entry is
`t : 1/2` by an allowlist containing `t` keeps the entry, but the resulting
`size_t` length is 0, not the retained-weight sum 1/2. -/
theorem filter_features_fractional_cex :
    ¬ (((docHalf.filter_features [("t", (1 : ℚ))]).length : ℚ)
        = ((docHalf._frequencies.filter
              (fun p => memKeys [("t", (1 : ℚ))] p.1)).map Prod.snd).sum) := by
  have hk : docHalf._frequencies.filter (fun p => memKeys [("t", (1 : ℚ))] p.1)
      = [("t", (1 : ℚ) / 2)] := rfl
  have hsum : (([("t", (1 : ℚ) / 2)]).map Prod.snd).sum = 1 / 2 := by
    simp
  have hlen : (docHalf.filter_features [("t", (1 : ℚ))]).length = 0 := by
    show ratToSizeT (((docHalf._frequencies.filter
        (fun p => memKeys [("t", (1 : ℚ))] p.1)).map Prod.snd).sum) = 0
    rw [hk, hsum, ratToSizeT_half]
  intro h
  rw [hlen, hk, hsum] at h
  norm_num at h

/-- Claim C2 (amended): the single-document `filter_features(D, F)` returns a
document whose mapping is exactly the restriction of D's mapping to keys
appearing both in D and in F (weights in F ignored, terms of F absent from D
not created), whose identity and metadata fields equal D's, and whose length
equals the sum of the retained entries' original weights whenever that sum is
a natural number below `2 ^ 64` (the `size_t` field truncates it otherwise).
D itself is unmodified, the operation being a pure function of its inputs. -/
theorem filter_features_single_correct (doc : document) (F : List (term_id × ℚ)) :
    (∀ t : term_id, (doc.filter_features F).frequency t
        = if t ∈ featKeySet F then doc.frequency t else 0) ∧
    keySet (doc.filter_features F) = keySet doc ∩ featKeySet F ∧
    (∀ n : Nat,
        ((doc._frequencies.filter (fun p => memKeys F p.1)).map Prod.snd).sum = (n : ℚ) →
        n < sizeTMod → (doc.filter_features F).length = n) ∧
    (doc.filter_features F).path = doc.path ∧
    (doc.filter_features F).id = doc.id ∧
    (doc.filter_features F).label = doc.label ∧
    (doc.filter_features F).name = doc.name ∧
    (doc.filter_features F).content = doc.content ∧
    (doc.filter_features F).contains_content = doc.contains_content := by
  refine ⟨?_, keySet_filter_features doc F, ?_, rfl, rfl, rfl, rfl, rfl, rfl⟩
  · intro t
    have hl := lookup_filter_memKeys doc._frequencies F t
    by_cases hm : t ∈ featKeySet F
    · have hb : memKeys F t = true := (memKeys_iff F t).mpr hm
      simp [document.filter_features, document.frequency, hl, hb, hm]
    · have hb : memKeys F t = false := by
        rcases Bool.eq_false_or_eq_true (memKeys F t) with h | h
        · exact absurd ((memKeys_iff F t).mp h) hm
        · exact h
      simp [document.filter_features, document.frequency, hl, hb, hm]
  · intro n hsum hlt
    show ratToSizeT (((doc._frequencies.filter
        (fun p => memKeys F p.1)).map Prod.snd).sum) = n
    rw [hsum]
    exact ratToSizeT_natCast n hlt

/-- Claim C2, witness: filtering the document A = \x7bterm1:2, term2:1\x7d by
the allowlist [term1, term3] keeps term1 at its original weight 2 and yields
length 2 — the filtering example of the specification. -/
theorem filter_features_single_witness :
    ((docA._frequencies.filter (fun p => memKeys featsA p.1)).map Prod.snd).sum
      = ((2 : Nat) : ℚ) ∧
    (2 : Nat) < sizeTMod ∧
    (docA.filter_features featsA).length = 2 ∧
    (docA.filter_features featsA).frequency "term1" = docA.frequency "term1" := by
  have hk : docA._frequencies.filter (fun p => memKeys featsA p.1)
      = [("term1", (2 : ℚ))] := rfl
  have hsum : ((docA._frequencies.filter (fun p => memKeys featsA p.1)).map Prod.snd).sum
      = ((2 : Nat) : ℚ) := by
    rw [hk]
    norm_num
  refine ⟨hsum, by norm_num [sizeTMod], ?_, ?_⟩
  · exact (filter_features_single_correct docA featsA).2.2.1 2 hsum
      (by norm_num [sizeTMod])
  · have hmem : "term1" ∈ featKeySet featsA := by decide
    rw [(filter_features_single_correct docA featsA).1 "term1", if_pos hmem]

lemma foldl_push_eq_map {α β : Type} (f : α → β) (l : List α) (acc : List β) :
    List.foldl (fun acc d => acc ++ [f d]) acc l = acc ++ l.map f := by
  induction l generalizing acc with
  | nil => simp
  | cons a l ih => simp [ih]

/-- Claim C7: the batch `filter_features(docs, features)` returns the result
of mapping the single-document filter over the input sequence — same length,
same order, element i filtered independently of the others. -/
theorem filter_features_batch_correct (docs : List document)
    (F : List (term_id × ℚ)) :
    document.filter_features_batch docs F
      = docs.map (fun d => d.filter_features F) ∧
    (document.filter_features_batch docs F).length = docs.length := by
  have h := foldl_push_eq_map (fun d => document.filter_features d F) docs []
  constructor
  · rw [document.filter_features_batch, h]
    simp
  · rw [document.filter_features_batch, h]
    simp

/-- Claim C3: `jaccard_similarity(a, b)` is the size of the intersection of
the term-key sets over the size of their union (weights ignored), is 0 when
both mappings are empty, is 1 for a non-empty document compared with itself,
and is 0 for two documents with disjoint non-empty key sets. -/
theorem jaccard_similarity_spec (a b : document) :
    (keySet a ∪ keySet b = ∅ → a.jaccard_similarity b = 0) ∧
    (keySet a ∪ keySet b ≠ ∅ →
      a.jaccard_similarity b
        = ((keySet a ∩ keySet b).card : ℚ) / ((keySet a ∪ keySet b).card : ℚ)) ∧
    (keySet a ≠ ∅ → a.jaccard_similarity a = 1) ∧
    (keySet a ≠ ∅ → keySet b ≠ ∅ → keySet a ∩ keySet b = ∅ →
      a.jaccard_similarity b = 0) := by
  refine ⟨?_, ?_, ?_, ?_⟩
  · intro h
    simp [document.jaccard_similarity, h]
  · intro h
    have hc : (keySet a ∪ keySet b).card ≠ 0 :=
      fun hz => h (Finset.card_eq_zero.mp hz)
    simp [document.jaccard_similarity, hc]
  · intro h
    have hc : (keySet a).card ≠ 0 := fun hz => h (Finset.card_eq_zero.mp hz)
    have hcq : ((keySet a).card : ℚ) ≠ 0 := Nat.cast_ne_zero.mpr hc
    simp [document.jaccard_similarity, Finset.union_self, Finset.inter_self, hc,
      div_self hcq]
  · intro ha hb hi
    have hu : (keySet a ∪ keySet b).card ≠ 0 := by
      intro hz
      have := Finset.card_eq_zero.mp hz
      exact ha (Finset.union_eq_empty.mp this).1
    simp [document.jaccard_similarity, hu, hi]

/-- Claim C3, witness: for the specification's documents A and B the union of
the key sets is non-empty, Jaccard similarity is the intersection-over-union
ratio 1/3, and A compared with itself scores 1. -/
theorem jaccard_similarity_witness :
    keySet docA ∪ keySet docB ≠ ∅ ∧
    docA.jaccard_similarity docB
      = ((keySet docA ∩ keySet docB).card : ℚ)
        / ((keySet docA ∪ keySet docB).card : ℚ) ∧
    keySet docA ≠ ∅ ∧
    docA.jaccard_similarity docA = 1 :=
  ⟨by decide,
   (jaccard_similarity_spec docA docB).2.1 (by decide),
   by decide,
   (jaccard_similarity_spec docA docB).2.2.1 (by decide)⟩

/-- Claim C4: `cosine_similarity(a, b)` is 0 whenever either weight vector
has zero squared norm, equals the dot product over the union of the key sets
(missing keys weighing 0) divided by the product of the Euclidean norms when
both norms are nonzero, and a document with at least one nonzero weight has
cosine similarity 1 with itself. -/
theorem cosine_similarity_spec (a b : document) :
    (a.normSq = 0 ∨ b.normSq = 0 → a.cosine_similarity b = 0) ∧
    (a.normSq ≠ 0 → b.normSq ≠ 0 →
      a.cosine_similarity b
        = (a.dotProduct b : ℝ)
          / (Real.sqrt (a.normSq : ℝ) * Real.sqrt (b.normSq : ℝ))) ∧
    ((∃ t : term_id, a.frequency t ≠ 0) → a.cosine_similarity a = 1) := by
  refine ⟨?_, ?_, ?_⟩
  · intro h
    have hz : Real.sqrt (a.normSq : ℝ) * Real.sqrt (b.normSq : ℝ) = 0 := by
      rcases h with h | h
      · rw [(sqrt_normSq_eq_zero_iff a).mpr h, zero_mul]
      · rw [(sqrt_normSq_eq_zero_iff b).mpr h, mul_zero]
    simp [document.cosine_similarity, hz]
  · intro ha hb
    have hza : Real.sqrt (a.normSq : ℝ) ≠ 0 :=
      fun hz => ha ((sqrt_normSq_eq_zero_iff a).mp hz)
    have hzb : Real.sqrt (b.normSq : ℝ) ≠ 0 :=
      fun hz => hb ((sqrt_normSq_eq_zero_iff b).mp hz)
    simp [document.cosine_similarity, mul_ne_zero hza hzb]
  · rintro ⟨t, ht⟩
    have hpos : 0 < a.normSq := normSq_pos a t ht
    have hposR : (0 : ℝ) < (a.normSq : ℝ) := by exact_mod_cast hpos
    have hne : a.normSq ≠ 0 := ne_of_gt hpos
    have hza : Real.sqrt (a.normSq : ℝ) ≠ 0 :=
      fun hz => hne ((sqrt_normSq_eq_zero_iff a).mp hz)
    have hdot : (a.dotProduct a : ℝ) = (a.normSq : ℝ) := by
      exact_mod_cast congrArg (Rat.cast : ℚ → ℝ) (dotProduct_self a)
    have hmul : Real.sqrt (a.normSq : ℝ) * Real.sqrt (a.normSq : ℝ)
        = (a.normSq : ℝ) := Real.mul_self_sqrt (le_of_lt hposR)
    simp only [document.cosine_similarity, hdot, hmul]
    rw [if_neg (ne_of_gt hposR)]
    exact div_self (ne_of_gt hposR)

/-- Claim C4, witness: the one-term document C = \x7bterm1:2\x7d has a
nonzero weight and cosine similarity 1 with itself. -/
theorem cosine_similarity_witness :
    (∃ t : term_id, docC.frequency t ≠ 0) ∧ docC.cosine_similarity docC = 1 :=
  ⟨⟨"term1", by decide⟩,
   (cosine_similarity_spec docC docC).2.2 ⟨"term1", by decide⟩⟩

/-- Claim C8: both similarity measures are symmetric in their two document
arguments. -/
theorem similarity_symmetric (a b : document) :
    a.jaccard_similarity b = b.jaccard_similarity a ∧
    a.cosine_similarity b = b.cosine_similarity a := by
  constructor
  · simp only [document.jaccard_similarity]
    rw [Finset.union_comm, Finset.inter_comm]
  · simp only [document.cosine_similarity]
    rw [dotProduct_comm, mul_comm]

/-- Claim C5: `get_slda_term_data()` produces a leading count of the distinct
nonzero-weight terms followed by one whitespace-separated `term:weight` token
per mapping entry (raw stored weights, mapping iteration order); on the
example document A = \x7bterm1:2, term2:1\x7d it produces
"2 term1:2 term2:1". -/
theorem get_slda_term_data_spec :
    (∀ d : document,
        d.get_slda_term_data
          = toString (nonzeroTermCount d)
            ++ strConcat (d._frequencies.map freqToken)) ∧
    docA.get_slda_term_data = "2 term1:2 term2:1" := by
  constructor
  · intro d
    show List.foldl (fun acc p => acc ++ freqToken p)
        (toString (nonzeroTermCount d)) d._frequencies = _
    rw [← List.foldl_map freqToken (fun acc a => acc ++ a) d._frequencies
        (toString (nonzeroTermCount d))]
    exact foldl_append_strConcat (d._frequencies.map freqToken)
      (toString (nonzeroTermCount d))
  · decide

lemma alistLookup_append_left {β : Type} (ps qs : List (String × β))
    (l : String) (i : β) (h : alistLookup ps l = some i) :
    alistLookup (ps ++ qs) l = some i := by
  induction ps with
  | nil => simp [alistLookup] at h
  | cons p rest ih =>
      obtain ⟨u, w⟩ := p
      by_cases hul : u = l
      · simp [alistLookup, hul] at h ⊢
        exact h
      · simp only [List.cons_append, alistLookup, hul, if_false] at h ⊢
        exact ih h

lemma lookup_get_slda_preserved (d : document) (m : invertible_map)
    (l : String) (i : Int) (h : alistLookup m.pairs l = some i) :
    alistLookup ((d.get_slda_label_data m).2).pairs l = some i := by
  show alistLookup ((getOrAssign m d._label).2).pairs l = some i
  cases hl : alistLookup m.pairs d._label with
  | some j =>
      simp only [getOrAssign, hl]
      exact h
  | none =>
      simp only [getOrAssign, hl]
      exact alistLookup_append_left m.pairs [(d._label, nextUnused m)] l i h

lemma post_call_lookup (d : document) (m : invertible_map) :
    alistLookup ((d.get_slda_label_data m).2).pairs d._label
      = some (getOrAssign m d._label).1 ∧
    (d.get_slda_label_data m).1 = toString (getOrAssign m d._label).1 := by
  refine ⟨?_, rfl⟩
  show alistLookup ((getOrAssign m d._label).2).pairs d._label
      = some (getOrAssign m d._label).1
  cases hl : alistLookup m.pairs d._label with
  | some j => simp [getOrAssign, hl]
  | none =>
      simp only [getOrAssign, hl]
      exact alistLookup_append_of_none m.pairs d._label (nextUnused m) hl

lemma runSlda_result_of_lookup (ds : List document) (m : invertible_map)
    (l : String) (i : Int) (h : alistLookup m.pairs l = some i) :
    ∀ (k : Nat) (hk : k < ds.length), (ds.get ⟨k, hk⟩)._label = l →
      (runSlda m ds).getD k "" = toString i := by
  induction ds generalizing m with
  | nil =>
      intro k hk
      simp at hk
  | cons d rest ih =>
      intro k hk hlab
      cases k with
      | zero =>
          have hl2 : alistLookup m.pairs d._label = some i := by
            rw [show d._label = l from hlab]
            exact h
          have hg : (getOrAssign m d._label).1 = i := by
            simp [getOrAssign, hl2]
          show toString (getOrAssign m d._label).1 = toString i
          rw [hg]
      | succ n =>
          have hm : alistLookup ((d.get_slda_label_data m).2).pairs l = some i :=
            lookup_get_slda_preserved d m l i h
          show (runSlda ((d.get_slda_label_data m).2) rest).getD n "" = toString i
          exact ih _ hm n (Nat.lt_of_succ_lt_succ hk) hlab

lemma runSlda_same_label (ds : List document) (m : invertible_map) :
    ∀ (i j : Nat) (hi : i < ds.length) (hj : j < ds.length),
      (ds.get ⟨i, hi⟩)._label = (ds.get ⟨j, hj⟩)._label →
      (runSlda m ds).getD i "" = (runSlda m ds).getD j "" := by
  induction ds generalizing m with
  | nil =>
      intro i j hi
      simp at hi
  | cons d rest ih =>
      intro i j hi hj hlab
      cases i with
      | zero =>
          cases j with
          | zero => rfl
          | succ n =>
              have hres := runSlda_result_of_lookup rest
                  ((d.get_slda_label_data m).2) d._label
                  (getOrAssign m d._label).1 (post_call_lookup d m).1 n
                  (Nat.lt_of_succ_lt_succ hj) hlab.symm
              show (d.get_slda_label_data m).1
                  = (runSlda ((d.get_slda_label_data m).2) rest).getD n ""
              rw [(post_call_lookup d m).2, hres]
      | succ n =>
          cases j with
          | zero =>
              have hres := runSlda_result_of_lookup rest
                  ((d.get_slda_label_data m).2) d._label
                  (getOrAssign m d._label).1 (post_call_lookup d m).1 n
                  (Nat.lt_of_succ_lt_succ hi) hlab
              show (runSlda ((d.get_slda_label_data m).2) rest).getD n ""
                  = (d.get_slda_label_data m).1
              rw [(post_call_lookup d m).2, hres]
          | succ k =>
              show (runSlda ((d.get_slda_label_data m).2) rest).getD n ""
                  = (runSlda ((d.get_slda_label_data m).2) rest).getD k ""
              exact ih _ n k (Nat.lt_of_succ_lt_succ hi)
                (Nat.lt_of_succ_lt_succ hj) hlab

/-- Claim C6: for every sequence of `get_slda_label_data` calls threaded
through one shared collaborator, any two calls whose documents carry the same
label return the same integer string, however many calls with other labels
come between them; a call whose label the collaborator has not seen returns
the next unused integer (one no earlier association uses) and records the
association in the shared mapping, while a call whose label is already mapped
to integer i returns i and leaves the mapping unchanged. -/
theorem get_slda_label_data_sequence (m : invertible_map) (ds : List document) :
    (∀ (i j : Nat) (hi : i < ds.length) (hj : j < ds.length),
        (ds.get ⟨i, hi⟩)._label = (ds.get ⟨j, hj⟩)._label →
        (runSlda m ds).getD i "" = (runSlda m ds).getD j "") ∧
    (∀ d : document, alistLookup m.pairs d._label = none →
        (d.get_slda_label_data m).1 = toString (nextUnused m) ∧
        nextUnused m ∉ usedInts m ∧
        alistLookup ((d.get_slda_label_data m).2).pairs d._label
          = some (nextUnused m)) ∧
    (∀ (d : document) (i : Int), alistLookup m.pairs d._label = some i →
        (d.get_slda_label_data m).1 = toString i ∧
        (d.get_slda_label_data m).2 = m) := by
  refine ⟨runSlda_same_label ds m, ?_, ?_⟩
  · intro d h0
    have hg : getOrAssign m d._label
        = (nextUnused m, ⟨m.pairs ++ [(d._label, nextUnused m)]⟩) := by
      simp [getOrAssign, h0]
    refine ⟨?_, nextUnused_not_mem m, ?_⟩
    · show toString (getOrAssign m d._label).1 = toString (nextUnused m)
      rw [hg]
    · show alistLookup ((getOrAssign m d._label).2).pairs d._label
          = some (nextUnused m)
      rw [hg]
      exact alistLookup_append_of_none m.pairs d._label (nextUnused m) h0
  · intro d i hi
    have hg : getOrAssign m d._label = (i, m) := by
      simp [getOrAssign, hi]
    constructor
    · show toString (getOrAssign m d._label).1 = toString i
      rw [hg]
    · show (getOrAssign m d._label).2 = m
      rw [hg]

/-- Claim C6, witness: serializing the label sequence spam, ham, spam against
one initially-empty collaborator returns the same string for the first and
third calls despite the intervening ham call, and the first spam call (label
unseen) returns the next unused integer and records the association. -/
theorem get_slda_label_data_sequence_witness :
    (docsW.get ⟨0, by decide⟩)._label = (docsW.get ⟨2, by decide⟩)._label ∧
    (runSlda (invertible_map.mk []) docsW).getD 0 ""
      = (runSlda (invertible_map.mk []) docsW).getD 2 "" ∧
    alistLookup (invertible_map.mk []).pairs
      (document.mkDoc "a" 0 "spam")._label = none ∧
    ((document.mkDoc "a" 0 "spam").get_slda_label_data (invertible_map.mk [])).1
      = toString (nextUnused (invertible_map.mk [])) ∧
    nextUnused (invertible_map.mk []) ∉ usedInts (invertible_map.mk []) ∧
    alistLookup (((document.mkDoc "a" 0 "spam").get_slda_label_data
        (invertible_map.mk [])).2).pairs (document.mkDoc "a" 0 "spam")._label
      = some (nextUnused (invertible_map.mk [])) := by
  have h02 : (docsW.get ⟨0, by decide⟩)._label
      = (docsW.get ⟨2, by decide⟩)._label := rfl
  have hfresh : alistLookup (invertible_map.mk []).pairs
      (document.mkDoc "a" 0 "spam")._label = none := rfl
  have hmain := (get_slda_label_data_sequence (invertible_map.mk []) docsW).1
    0 2 (by decide) (by decide) h02
  have hf := (get_slda_label_data_sequence (invertible_map.mk []) docsW).2.1
    (document.mkDoc "a" 0 "spam") hfresh
  exact ⟨h02, hmain, hfresh, hf.1, hf.2.1, hf.2.2⟩

lemma isSetContent_iff (op : DocOp) :
    isSetContent op = true ↔ ∃ c : String, op = DocOp.setContent c := by
  cases op <;> simp [isSetContent]

/-- Claim C9: immediately after construction `contains_content()` is false,
and after any sequence of operations it is true exactly when the sequence
contains at least one `set_content` call (with any payload, the empty string
included). -/
theorem contains_content_spec (p : String) (i : doc_id) (l : class_label)
    (ops : List DocOp) :
    (document.mkDoc p i l).contains_content = false ∧
    ((applyOps (document.mkDoc p i l) ops).contains_content = true ↔
      ∃ c : String, DocOp.setContent c ∈ ops) := by
  constructor
  · rfl
  · have hunfold :
        (applyOps (document.mkDoc p i l) ops).contains_content
          = (applyOps (document.mkDoc p i l) ops)._contains_content := rfl
    rw [hunfold, contains_content_applyOps]
    have h0 : (document.mkDoc p i l)._contains_content = false := rfl
    rw [h0, Bool.false_or, List.any_eq_true]
    constructor
    · rintro ⟨op, hop, hs⟩
      obtain ⟨c, rfl⟩ := (isSetContent_iff op).mp hs
      exact ⟨c, hop⟩
    · rintro ⟨c, hc⟩
      exact ⟨DocOp.setContent c, hc, by simp [isSetContent]⟩

end MetaCorpus
